import Mathlib

/-!
Verification of the `call_iq` pipeline execution core.

This file is a shallow embedding, in Lean 4, of the parts of the repository
that the specification's claims are about:

* `src/src/whisper_transcribe.py` — `WhisperTranscribe.merge_segments`
  (intra-channel merge), `WhisperTranscribe._write_transcript` and
  `WhisperTranscribe.postprocess_transcripts` (cross-channel merge and the
  `conversation.json` / `conversation.txt` outputs);
* `src/src/subprocess_pool.py` — `SubprocessPool.run`;
* `src/ssh_downloader.py` — `SSHDownloader.prepare_transfer`,
  `SSHDownloader.finalize_transfer` and `SSHDownloader.download`.

Python `float` timing values are modelled as `ℚ` (no NaN/rounding behaviour is
relevant to any claim), Python strings as Lean `String` (in Lean 4.14 a
`String` is a packed `List Char`, which matches Python's sequence-of-code-points
view for the operations used here), Python dicts either as structures (when the
key set is fixed) or as association lists (when key order/updates matter), and
fallible operations as `Option`.
-/

namespace CallIq
/-! ### Python string primitives

`pws` is Python's default `str.strip()` whitespace class restricted to ASCII
(space, tab, newline, carriage return, vertical tab, form feed).  `pyStrip`
models `s.strip()`, `sepJoin` models `" ".join(parts)` and `joinNL` models
`"\n".join(lines)`.
-/

def pws (c : Char) : Bool :=
  c = ' ' || c = '\t' || c = '\n' || c = '\r' || c = '\x0b' || c = '\x0c'

/-- Char-list version of Python `str.strip()`: drop whitespace from both ends. -/
def stripChars (l : List Char) : List Char :=
  (((l.dropWhile pws).reverse).dropWhile pws).reverse

/-- Python `s.strip()`. -/
def pyStrip (s : String) : String := ⟨stripChars s.data⟩

/-- Python `" ".join(parts)`. -/
def sepJoin : List String → String
  | [] => ""
  | [p] => p
  | p :: ps => p ++ " " ++ sepJoin ps

/-- Python `"\n".join(lines)`. -/
def joinNL : List String → String
  | [] => ""
  | [p] => p
  | p :: ps => p ++ "\n" ++ joinNL ps

/-! ### A stable sort

Python's `list.sort(key=...)` is a stable ascending sort by key.  We embed it
as a stable insertion sort parameterised by a strict "key less than"
comparator: an element is placed before an existing element only when it is
strictly smaller, which is exactly stability for a stable ascending sort.
-/

def insertStable (lt : α → α → Bool) (x : α) : List α → List α
  | [] => [x]
  | y :: ys => if lt x y then x :: y :: ys else y :: insertStable lt x ys

/-- Stable ascending sort by the strict comparator `lt`
(the embedding of Python's stable `list.sort(key=...)`). -/
def pySort (lt : α → α → Bool) : List α → List α
  | [] => []
  | x :: xs => insertStable lt x (pySort lt xs)

/-! ### Sort keys

Python's tuple comparison `(a, b, c) < (a', b', c')` is the lexicographic
order, and Python string comparison is the lexicographic order on code points,
i.e. the lexicographic order on `List Char`.  Every sort key used by the
source is therefore an element of an iterated `×ₗ` of linear orders, and the
strict comparator handed to `pySort` is `keyLt` for the appropriate key.
-/

def keyLt [LinearOrder K] (f : α → K) (a b : α) : Bool := decide (f a < f b)

/-! ### Intra-channel merge: `WhisperTranscribe.merge_segments`

A raw input segment dict is modelled by its three consulted entries:
`seg.get("start", None)`, `seg.get("end", None)` and `str(seg.get("text", ""))`.
A `none` timing field models both a missing key and a value on which `float()`
raises (`TypeError`/`ValueError`), the two cases the source `continue`s on.
(`end` is a Lean keyword, so the field is called `stop`.)  Entries of the
Python list that are not dicts are likewise dropped by the source before any
field is consulted; such entries are outside this data model.
-/

structure RawSeg where
  start? : Option ℚ
  stop? : Option ℚ
  text : String
deriving DecidableEq, Repr

/-- A normalized segment (the dicts built in the first loop of
`merge_segments`).  The source also records `_source_index`; it is threaded
through the merge loop as `cur_source_indices` but never appears in the
returned merged dicts, so it is omitted here. -/
structure NSeg where
  start : ℚ
  stop : ℚ
  text : String
deriving DecidableEq, Repr

/-- A merged utterance as returned by `merge_segments`. -/
structure MSeg where
  start : ℚ
  stop : ℚ
  midpoint : ℚ
  text : String
deriving DecidableEq, Repr

/-- One step of the normalization loop of `merge_segments`: parse the timing
fields, drop the segment when parsing fails or `end_f < start_f`, strip the
text and drop the segment when the stripped text is empty. -/
def normalizeSeg (seg : RawSeg) : Option NSeg :=
  match seg.start?, seg.stop? with
  | some start_f, some end_f =>
    if end_f < start_f then none
    else
      let text_s := pyStrip seg.text
      if text_s = "" then none else some ⟨start_f, end_f, text_s⟩
  | _, _ => none

/-- The full normalization loop of `merge_segments`. -/
def normalize (segments : List RawSeg) : List NSeg := segments.filterMap normalizeSeg

/-- The comparator of `normalized.sort(key=lambda s: (s["start"], s["end"]))`. -/
def nsegLt : NSeg → NSeg → Bool := keyLt fun n => toLex (n.start, n.stop)

/-- The accumulator loop of `merge_segments` (`cur_start`/`cur_end`/
`cur_text_parts` and the trailing emit after the loop). -/
def mergeLoop (gapThreshold : ℚ) (curStart curEnd : ℚ) (curTextParts : List String) :
    List NSeg → List MSeg
  | [] => [⟨curStart, curEnd, (curStart + curEnd) / 2, pyStrip (sepJoin curTextParts)⟩]
  | seg :: rest =>
    if seg.start - curEnd ≤ gapThreshold then
      mergeLoop gapThreshold curStart (max curEnd seg.stop) (curTextParts ++ [seg.text]) rest
    else
      ⟨curStart, curEnd, (curStart + curEnd) / 2, pyStrip (sepJoin curTextParts)⟩ ::
        mergeLoop gapThreshold seg.start seg.stop [seg.text] rest

/-- The function `WhisperTranscribe.merge_segments`.  The source checks
`if not normalized: return []` before sorting; sorting the empty list yields
the empty list, so matching on the sorted list is equivalent. -/
def merge_segments (segments : List RawSeg) (gapThreshold : ℚ) : List MSeg :=
  if segments = [] then []
  else
    match pySort nsegLt (normalize segments) with
    | [] => []
    | first :: rest => mergeLoop gapThreshold first.start first.stop [first.text] rest

/-! ### Spec-side description of the intra-channel merge

The specification describes the algorithm in its own words ("sort segments by
(start, end); fold left-to-right, maintaining a current accumulator segment
…").  The following definitions transcribe those words, to be compared with
`merge_segments` above; they are deliberately written from the spec, not from
the source.
-/

structure SpecSeg where
  start : ℚ
  stop : ℚ
  text : String
deriving DecidableEq, Repr

def specLt : SpecSeg → SpecSeg → Bool := keyLt fun n => toLex (n.start, n.stop)

/-- Spec: "For each next segment, compute `gap = next.start − accumulator.end`.
If `gap ≤ threshold`, extend the accumulator (`end = max(accumulator.end,
next.end)`, text = accumulator text + " " + next text) and continue; otherwise
emit the accumulator as a finished merged segment and start a new accumulator
from `next`.  Emit the final accumulator after the loop." -/
def specMergeFold (threshold : ℚ) (acc : SpecSeg) : List SpecSeg → List SpecSeg
  | [] => [acc]
  | n :: rest =>
    if n.start - acc.stop ≤ threshold then
      specMergeFold threshold ⟨acc.start, max acc.stop n.stop, acc.text ++ " " ++ n.text⟩ rest
    else
      acc :: specMergeFold threshold ⟨n.start, n.stop, n.text⟩ rest

/-- Spec: "sort segments by (start, end); fold left-to-right". -/
def specIntraMerge (threshold : ℚ) (segs : List SpecSeg) : List SpecSeg :=
  match pySort specLt segs with
  | [] => []
  | first :: rest => specMergeFold threshold first rest

def projN (n : NSeg) : SpecSeg := ⟨n.start, n.stop, n.text⟩

def projM (m : MSeg) : SpecSeg := ⟨m.start, m.stop, m.text⟩

/-! ### Facts about `pyStrip` and `sepJoin`

The source normalizes every segment text with `.strip()` and later joins the
collected parts with `" ".join(...).strip()`; the spec instead describes the
joined text as built by repeated `text + " " + text`.  The two agree because
stripping a space-join of already-stripped nonempty strings is the identity.
-/

/-- The first character, if any, is not whitespace. -/
def headNonWs (l : List Char) : Prop := ∀ c, l.head? = some c → pws c = false

/-- A string that survives normalization: nonempty and fixed by `pyStrip`. -/
def goodText (s : String) : Prop := s ≠ "" ∧ pyStrip s = s

/-- The leading `if not segments` guard of `merge_segments` is redundant:
the function factors through the normalized list. -/
def mergeCore (normalized : List NSeg) (gapThreshold : ℚ) : List MSeg :=
  match pySort nsegLt normalized with
  | [] => []
  | first :: rest => mergeLoop gapThreshold first.start first.stop [first.text] rest

/-- Claim-side well-formedness of a raw segment: both timing fields parse and
`end ≥ start`.  Segments failing this are the ones the spec says are
"dropped during normalization". -/
def wellTimedSeg (s : RawSeg) : Bool :=
  match s.start?, s.stop? with
  | some a, some b => decide (a ≤ b)
  | _, _ => false

/-- A segment whose text strips to the empty string. -/
def blankTextSeg (s : RawSeg) : Bool := decide (pyStrip s.text = "")

/-! ### Cross-channel merge: `WhisperTranscribe.postprocess_transcripts`

Per call directory the source reads `customer.json`, `store.json` and
`timestamp.json`, skipping the call (with a logged error) when a file is
missing or unreadable, and otherwise builds `conversation.json` /
`conversation.txt` from the two transcripts.

A channel transcript is modelled by the fields `_write_transcript` emits and
`postprocess_transcripts` consults.  A channel segment is modelled by the
passthrough keys `{"start", "end", "text", "avg_logprob", "compression_ratio",
"no_speech_prob", "temperature"}`; `start`, `end` and `text` are required
because the sort key and the text rendering index them unconditionally (a
segment lacking them raises `KeyError`, which is outside this data model),
the remaining keys are optional.
-/

structure ChanSeg where
  start : ℚ
  stop : ℚ
  text : String
  avgLogprob : Option ℚ
  compressionRatio : Option ℚ
  noSpeechProb : Option ℚ
  temperature : Option ℚ
deriving DecidableEq, Repr

structure Transcript where
  audioFile : String
  channel : String
  model : String
  text : String
  language : Option String
  languageProbability : Option ℚ
  duration : Option ℚ
  segments : List ChanSeg
deriving DecidableEq, Repr

/-- The file `timestamp.json`: `{datetime_utc, datetime_ep}`. -/
structure Timestamp where
  datetimeUtc : String
  datetimeEp : ℚ
deriving DecidableEq, Repr

/-- A segment of `segments_with_channel`: the passthrough fields plus the
`channel` tag added by the loop. -/
structure ConvSeg where
  start : ℚ
  stop : ℚ
  text : String
  avgLogprob : Option ℚ
  compressionRatio : Option ℚ
  noSpeechProb : Option ℚ
  temperature : Option ℚ
  channel : String
deriving DecidableEq, Repr

/-- The inner loop `for seg in tr.get("segments", [])`: filter to the
passthrough keys and tag with the transcript's channel. -/
def tagSegments (tr : Transcript) : List ConvSeg :=
  tr.segments.map fun s =>
    ⟨s.start, s.stop, s.text, s.avgLogprob, s.compressionRatio, s.noSpeechProb,
      s.temperature, tr.channel⟩

/-- The comparator of
`segments_with_channel.sort(key=lambda t: (t["start"], t["end"], t["channel"]))`;
Python compares strings lexicographically by code point, i.e. as `List Char`. -/
def convLt : ConvSeg → ConvSeg → Bool :=
  keyLt fun t => toLex (t.start, toLex (t.stop, t.channel.data))

/-- Both channels' tagged segments, concatenated (customer first, as the
source iterates `[customer, store]`) and sorted by `(start, end, channel)`. -/
def segments_with_channel (customer store : Transcript) : List ConvSeg :=
  pySort convLt (tagSegments customer ++ tagSegments store)

/-- One line `f'{t["channel"]}: {t["text"]}'` of the text rendering. -/
def renderLine (t : ConvSeg) : String := t.channel ++ ": " ++ t.text

/-- The rendering `"\n".join([f'{t["channel"]}: {t["text"]}' for t in segments_with_channel]).strip()`. -/
def conversation_text (segs : List ConvSeg) : String :=
  pyStrip (joinNL (segs.map renderLine))

/-- The bytes written to `conversation.txt`: `conversation_text + "\n"`. -/
def conversationTxtFile (segs : List ConvSeg) : String := conversation_text segs ++ "\n"

/-- The duration `max(float(customer.get("duration") or 0.0), float(store.get("duration") or 0.0))`.
With durations modelled as optional rationals the `float()` conversion cannot
raise, so the `except` branch that sets `duration = None` is unreachable. -/
def conversationDuration (customer store : Transcript) : ℚ :=
  max (customer.duration.getD 0) (store.duration.getD 0)

/-- The per-call output record (`conversation.json` content, structural part). -/
structure Conversation where
  callId : String
  callDatetimeUtc : String
  callDatetimeEp : ℚ
  duration : ℚ
  conversationText : String
  segments : List ConvSeg
deriving DecidableEq, Repr

/-- One iteration of the `postprocess_transcripts` loop for one call
directory.  A `none` input models a missing input file (the
`if not customer_path.exists() ...` skip) or a file whose JSON read raised
(the `except` skip); in both cases the call is skipped and nothing is
written.  With all three inputs present the merge is total: it returns a
conversation unconditionally. -/
def postprocessCall (customer store : Option Transcript) (timestamp : Option Timestamp)
    (callDirName : String) : Option Conversation :=
  match customer, store, timestamp with
  | some c, some s, some t =>
    let segs := segments_with_channel c s
    some
      { callId := callDirName
        callDatetimeUtc := t.datetimeUtc
        callDatetimeEp := t.datetimeEp
        duration := conversationDuration c s
        conversationText := conversation_text segs
        segments := segs }
  | _, _, _ => none

/-- One call directory of the output root: its name and whatever subset of
`customer.json` / `store.json` / `timestamp.json` is present and readable. -/
structure CallInputs where
  name : String
  customer : Option Transcript
  store : Option Transcript
  timestamp : Option Timestamp

/-- The whole `postprocess_transcripts` batch loop: every call directory is
processed independently; a skipped call contributes nothing. -/
def postprocess_transcripts (calls : List CallInputs) : List Conversation :=
  calls.filterMap fun ci => postprocessCall ci.customer ci.store ci.timestamp ci.name

/-! ### Key-level model of the `conversation.json` payload

`postprocess_transcripts` builds the payload as a dict literal, a
`payload.update(recording_metadata)` and one item assignment.  Key lists with
Python dict update semantics (an existing key keeps its position) model the
key sets involved.
-/

/-- The set `self.segment_metadata_passthrough_keys` (a Python set; only membership
is used). -/
def segment_metadata_passthrough_keys : List String :=
  ["start", "end", "text", "avg_logprob", "compression_ratio", "no_speech_prob", "temperature"]

/-- Keys of `seg_w_metadata`: the comprehension keeps the passthrough keys in
the segment's own order, then `seg_w_metadata["channel"] = channel` appends
`"channel"` (which is never a passthrough key). -/
def seg_w_metadata_keys (segKeys : List String) : List String :=
  segKeys.filter (fun k => segment_metadata_passthrough_keys.contains k) ++ ["channel"]

/-- Python `d[k] = v` at key level: keep position if present, else append. -/
def pyDictSetKey (ks : List String) (k : String) : List String :=
  if ks.contains k then ks else ks ++ [k]

/-- The key list of the `payload` dict written to `conversation.json`:
the dict literal, then `payload.update(recording_metadata)` where
`recording_metadata` has one `f"{channel}_metadata"` key per transcript
(customer first), then `payload["segments_with_channel"] = ...`. -/
def conversation_payload_keys (customerChannel storeChannel : String) : List String :=
  let base := ["call_id", "call_datetime_utc", "call_datetime_ep", "duration", "conversation_text"]
  let rm := pyDictSetKey (pyDictSetKey [] (customerChannel ++ "_metadata"))
    (storeChannel ++ "_metadata")
  pyDictSetKey (rm.foldl pyDictSetKey base) "segments_with_channel"

/-! ### `_write_transcript` and the merge flag

`_write_transcript` always writes the raw `segments` list; when
`self.merge_segments_s` is set it additionally writes a separate
`merged_segments` key.  `postprocess_transcripts` reads only `segments`.
-/

/-- The segment-related content of a per-channel transcript JSON as written
by `_write_transcript`: the raw segments always, `merged_segments` only when
a merge gap threshold is configured. -/
structure ChannelPayloadSegs where
  segments : List RawSeg
  mergedSegments : Option (List MSeg)
deriving DecidableEq, Repr

/-- The assignments `payload["segments"] = segments_raw` and, when `self.merge_segments_s`
is not `None`,
`payload["merged_segments"] = self.merge_segments(segments_raw, ...)`. -/
def write_transcript_segs (mergeSegmentsS : Option ℚ) (segmentsRaw : List RawSeg) :
    ChannelPayloadSegs :=
  { segments := segmentsRaw
    mergedSegments := mergeSegmentsS.map fun t => merge_segments segmentsRaw t }

/-! ### `SubprocessPool` (`src/src/subprocess_pool.py`) -/

structure ProcResult where
  cmd : List String
  rc : ℤ
  stdout : String
  stderr : String
deriving DecidableEq, Repr

/-- The observable behaviour of running a single command in isolation:
its exit status and output streams as functions of the command. -/
structure IsolatedRun where
  rc : List String → ℤ
  stdout : List String → String
  stderr : List String → String

structure SubprocessPool where
  maxWorkers : ℕ
  captureStdout : Bool
  captureStderr : Bool
deriving DecidableEq, Repr

/-- The constructor's `self.max_workers = max(1, int(max_workers))`. -/
def mkSubprocessPool (maxWorkers : ℤ) (captureStdout captureStderr : Bool) : SubprocessPool :=
  { maxWorkers := (max 1 maxWorkers).toNat
    captureStdout := captureStdout
    captureStderr := captureStderr }

/-- Reaping one finished process: record the command, its exit status and the
captured streams (empty when capture is disabled). -/
def finishResult (pool : SubprocessPool) (env : IsolatedRun) (cmd : List String) : ProcResult :=
  { cmd := cmd
    rc := env.rc cmd
    stdout := if pool.captureStdout then env.stdout cmd else ""
    stderr := if pool.captureStderr then env.stderr cmd else "" }

/-- The `while i < len(cmds) or running:` loop of `SubprocessPool.run`.
Each iteration first fills free slots from the pending list, then reaps one
finished process.  Which in-flight process has terminated first is scheduler
nondeterminism, modelled by the `oracle` choice of an index into the running
list (the busy-poll sleep between scans has no observable effect on the
result list).  One iteration retires exactly one job, so `fuel` equal to the
number of submitted commands drives the loop to completion. -/
def poolLoop (pool : SubprocessPool) (env : IsolatedRun) (oracle : ℕ → ℕ) :
    ℕ → List (List String) → List (List String) → List ProcResult → List ProcResult
  | 0, _, _, results => results
  | fuel + 1, pending, running, results =>
    let k := min (pool.maxWorkers - running.length) pending.length
    match running ++ pending.take k with
    | [] => results
    | c :: cs =>
      let j := oracle results.length % (c :: cs).length
      poolLoop pool env oracle fuel (pending.drop k) ((c :: cs).eraseIdx j)
        (results ++ [finishResult pool env ((c :: cs).get ⟨j, Nat.mod_lt _ (Nat.succ_pos cs.length)⟩)])

/-- The method `SubprocessPool.run`. -/
def pool_run (pool : SubprocessPool) (env : IsolatedRun) (oracle : ℕ → ℕ)
    (commands : List (List String)) : List ProcResult :=
  poolLoop pool env oracle commands.length commands [] []

/-! ### `SSHDownloader` (`src/ssh_downloader.py`)

The local destination tree and the staging area are association lists from
relative path to file content; `List.lookup` is the existence/content check.
The remote tree is its (sorted, relative) `find` listing plus a content
function.
-/

/-- The method `prepare_transfer`: the manifest is the sublist of remote files whose
relative path does not exist locally (an existence check, not a content
check).  Sizes are used only for progress display and are not modelled. -/
def prepare_transfer (remotePaths : List String) (localFiles : List (String × String)) :
    List String :=
  remotePaths.filter fun rel => (localFiles.lookup rel).isNone

/-- The method `transfer`: the remote `tar` producer archives exactly the manifest's
relative paths and the local `tar` consumer unpacks them byte-identically
into the (recreated) staging area. -/
def transfer (manifest : List String) (remoteContent : String → String) :
    List (String × String) :=
  manifest.map fun rel => (rel, remoteContent rel)

/-- The method `finalize_transfer`: walk the staged files; a file whose destination path
already exists is counted as skipped and left alone, otherwise the file is
moved (`os.replace`) into the destination and counted as moved.  Returns the
updated destination tree and `(moved, skipped)`. -/
def finalize_transfer : List (String × String) → List (String × String) →
    (List (String × String)) × ℕ × ℕ
  | [], dest => (dest, 0, 0)
  | (rel, content) :: rest, dest =>
    if (dest.lookup rel).isSome then
      let r := finalize_transfer rest dest
      (r.1, r.2.1, r.2.2 + 1)
    else
      let r := finalize_transfer rest (dest ++ [(rel, content)])
      (r.1, r.2.1 + 1, r.2.2)

/-- The method `download`: list, diff, and — only when the manifest is nonempty — stream
into staging and promote.  The returned flag records whether the streaming
transfer and promotion ran at all. -/
def download (remotePaths : List String) (remoteContent : String → String)
    (localFiles : List (String × String)) :
    (List (String × String)) × List String × Bool :=
  let manifest := prepare_transfer remotePaths localFiles
  if manifest = [] then (localFiles, manifest, false)
  else ((finalize_transfer (transfer manifest remoteContent) localFiles).1, manifest, true)

/-! ### Newline counting for `conversation.txt` -/

/-- Char-list version of `joinNL`. -/
def joinNLData : List (List Char) → List Char
  | [] => []
  | [p] => p
  | p :: ps => p ++ '\n' :: joinNLData ps

/-! ### Concrete example inputs used by the claim theorems -/

/-- The spec's C6 example: customer channel with one segment `(0, 1, "hi")`. -/
def custHi : Transcript :=
  { audioFile := "call1/customer.wav", channel := "customer", model := "large-v3-turbo",
    text := "hi", language := some "en", languageProbability := some 1, duration := some 1,
    segments := [⟨0, 1, "hi", none, none, none, none⟩] }

/-- The spec's C6 example: store channel with one segment `(0.5, 1.5, "hello")`. -/
def storeHello : Transcript :=
  { audioFile := "call1/store.wav", channel := "store", model := "large-v3-turbo",
    text := "hello", language := some "en", languageProbability := some 1,
    duration := some (3/2),
    segments := [⟨1/2, 3/2, "hello", none, none, none, none⟩] }

/-- A customer transcript of a different call than `storeHello`'s: every
identifying field (audio file path, text, duration, segments) differs. -/
def custOtherCall : Transcript :=
  { audioFile := "call9/customer.wav", channel := "customer", model := "large-v3-turbo",
    text := "bye", language := some "en", languageProbability := some 1, duration := some 7,
    segments := [⟨3, 4, "bye", none, none, none, none⟩] }

def tsExample : Timestamp := { datetimeUtc := "2024-01-01T00:00:00+00:00", datetimeEp := 1704067200 }

/-- A customer transcript with two back-to-back segments that an
intra-channel merge with threshold 0 would coalesce. -/
def custC9 : Transcript :=
  { audioFile := "call2/customer.wav", channel := "customer", model := "large-v3-turbo",
    text := "a b", language := some "en", languageProbability := some 1, duration := some 2,
    segments := [⟨0, 1, "a", none, none, none, none⟩, ⟨1, 2, "b", none, none, none, none⟩] }

/-- A store transcript with no segments. -/
def storeC9 : Transcript :=
  { audioFile := "call2/store.wav", channel := "store", model := "large-v3-turbo",
    text := "", language := some "en", languageProbability := some 1, duration := some 2,
    segments := [] }

/-- View a channel segment as a raw merge input
(its `start`/`end`/`text` dict entries). -/
def chanToRaw (s : ChanSeg) : RawSeg := ⟨some s.start, some s.stop, s.text⟩

/-- A channel's segments after intra-channel merging, tagged with the channel
label (part of the claim-side pipeline below). -/
def tagMergedSegments (tr : Transcript) (threshold : ℚ) : List ConvSeg :=
  (merge_segments (tr.segments.map chanToRaw) threshold).map fun m =>
    ⟨m.start, m.stop, m.text, none, none, none, none, tr.channel⟩

/-- The cross-channel merge as the claim describes it when a gap threshold is
supplied: intra-channel merge each transcript's own segments first, then
concatenate and sort.  This definition transcribes the claim, not the source,
and is compared against `segments_with_channel`. -/
def claimed_intra_then_cross (threshold : ℚ) (customer store : Transcript) : List ConvSeg :=
  pySort convLt (tagMergedSegments customer threshold ++ tagMergedSegments store threshold)

/-- A conversation segment whose text contains an embedded newline. -/
def newlineSeg : ConvSeg := ⟨0, 1, "a\nb", none, none, none, none, "customer"⟩

theorem insertStable_perm (lt : α → α → Bool) (x : α) (l : List α) :
    (insertStable lt x l).Perm (x :: l) := by
  induction l with
  | nil => exact List.Perm.refl _
  | cons y ys ih =>
    simp only [insertStable]
    by_cases h : lt x y
    · simp [h]
    · simp only [h, if_neg]
      exact (List.Perm.cons y ih).trans (List.Perm.swap x y ys)

theorem pySort_perm (lt : α → α → Bool) (l : List α) : (pySort lt l).Perm l := by
  induction l with
  | nil => exact List.Perm.refl _
  | cons x xs ih =>
    exact (insertStable_perm lt x (pySort lt xs)).trans (List.Perm.cons x ih)

theorem pairwise_insertStable (lt : α → α → Bool)
    (asym : ∀ a b, lt a b = true → lt b a = false)
    (negtrans : ∀ a b c, lt b a = false → lt c b = false → lt c a = false)
    (x : α) (l : List α)
    (hl : l.Pairwise (fun a b => lt b a = false)) :
    (insertStable lt x l).Pairwise (fun a b => lt b a = false) := by
  induction l with
  | nil => simp [insertStable]
  | cons y ys ih =>
    rcases List.pairwise_cons.mp hl with ⟨hy, hys⟩
    simp only [insertStable]
    by_cases h : lt x y
    · simp only [h, if_pos]
      refine List.pairwise_cons.mpr ⟨?_, hl⟩
      intro b hb
      rcases List.mem_cons.mp hb with rfl | hb'
      · exact asym x b h
      · exact negtrans x y b (asym x y h) (hy b hb')
    · have hxy : lt x y = false := by simpa using h
      simp only [h, if_neg]
      refine List.pairwise_cons.mpr ⟨?_, ih hys⟩
      intro b hb
      have hb' : b = x ∨ b ∈ ys := by
        have := (insertStable_perm lt x ys).mem_iff.mp hb
        simpa using this
      rcases hb' with rfl | hb'
      · exact hxy
      · exact hy b hb'

theorem pairwise_pySort (lt : α → α → Bool)
    (asym : ∀ a b, lt a b = true → lt b a = false)
    (negtrans : ∀ a b c, lt b a = false → lt c b = false → lt c a = false)
    (l : List α) :
    (pySort lt l).Pairwise (fun a b => lt b a = false) := by
  induction l with
  | nil => simp [pySort]
  | cons x xs ih => exact pairwise_insertStable lt asym negtrans x (pySort lt xs) ih

theorem map_insertStable (ltA : α → α → Bool) (ltB : β → β → Bool) (f : α → β)
    (hf : ∀ a b, ltA a b = ltB (f a) (f b)) (x : α) (l : List α) :
    (insertStable ltA x l).map f = insertStable ltB (f x) (l.map f) := by
  induction l with
  | nil => rfl
  | cons y ys ih =>
    simp only [insertStable, List.map_cons, ← hf]
    by_cases h : ltA x y
    · simp [h]
    · simp [h, ih]

theorem map_pySort (ltA : α → α → Bool) (ltB : β → β → Bool) (f : α → β)
    (hf : ∀ a b, ltA a b = ltB (f a) (f b)) (l : List α) :
    (pySort ltA l).map f = pySort ltB (l.map f) := by
  induction l with
  | nil => rfl
  | cons x xs ih =>
    simp only [pySort, List.map_cons, map_insertStable ltA ltB f hf, ih]

theorem keyLt_asym [LinearOrder K] (f : α → K) (a b : α) :
    keyLt f a b = true → keyLt f b a = false := by
  simp only [keyLt, decide_eq_true_eq, decide_eq_false_iff_not]
  exact fun h => lt_asymm h

theorem keyLt_negtrans [LinearOrder K] (f : α → K) (a b c : α) :
    keyLt f b a = false → keyLt f c b = false → keyLt f c a = false := by
  simp only [keyLt, decide_eq_false_iff_not, not_lt]
  exact fun h1 h2 => le_trans h1 h2

theorem length_dropWhile_le (p : α → Bool) (l : List α) :
    (l.dropWhile p).length ≤ l.length := by
  have h := congrArg List.length (List.takeWhile_append_dropWhile p l)
  simp only [List.length_append] at h
  omega

theorem dropWhile_eq_self_of_length (p : α → Bool) (l : List α)
    (h : (l.dropWhile p).length = l.length) : l.dropWhile p = l := by
  have h2 := List.takeWhile_append_dropWhile p l
  have h3 : (l.takeWhile p).length + (l.dropWhile p).length = l.length := by
    rw [← List.length_append, h2]
  have h4 : l.takeWhile p = [] := List.length_eq_zero.mp (by omega)
  calc l.dropWhile p = l.takeWhile p ++ l.dropWhile p := by rw [h4]; rfl
    _ = l := h2

theorem headNonWs_dropWhile (l : List Char) : headNonWs (l.dropWhile pws) := by
  induction l with
  | nil => intro c hc; simp at hc
  | cons a t ih =>
    intro c hc
    rw [List.dropWhile_cons] at hc
    by_cases h : pws a = true
    · rw [if_pos h] at hc
      exact ih c hc
    · rw [if_neg h] at hc
      simp only [List.head?_cons, Option.some.injEq] at hc
      subst hc
      simpa using h

theorem dropWhile_pws_eq_self (l : List Char) (h : headNonWs l) : l.dropWhile pws = l := by
  cases l with
  | nil => rfl
  | cons a t =>
    have := h a (by simp)
    simp [List.dropWhile_cons, this]

theorem stripChars_eq_self (l : List Char) (h1 : headNonWs l) (h2 : headNonWs l.reverse) :
    stripChars l = l := by
  unfold stripChars
  rw [dropWhile_pws_eq_self l h1, dropWhile_pws_eq_self l.reverse h2, List.reverse_reverse]

theorem headNonWs_of_stripChars_eq_self (l : List Char) (h : stripChars l = l) :
    headNonWs l ∧ headNonWs l.reverse := by
  have hlen : (stripChars l).length = ((l.dropWhile pws).reverse.dropWhile pws).length := by
    simp [stripChars]
  have hBle : ((l.dropWhile pws).reverse.dropWhile pws).length ≤ (l.dropWhile pws).length := by
    have := length_dropWhile_le pws (l.dropWhile pws).reverse
    simpa using this
  have hAle := length_dropWhile_le pws l
  have hll : (stripChars l).length = l.length := by rw [h]
  have hAeq : l.dropWhile pws = l :=
    dropWhile_eq_self_of_length pws l (by omega)
  have hBeq : (l.dropWhile pws).reverse.dropWhile pws = (l.dropWhile pws).reverse := by
    apply dropWhile_eq_self_of_length pws (l.dropWhile pws).reverse
    simp only [List.length_reverse]
    omega
  refine ⟨?_, ?_⟩
  · have := headNonWs_dropWhile l
    rwa [hAeq] at this
  · rw [hAeq] at hBeq
    have := headNonWs_dropWhile l.reverse
    rwa [hBeq] at this

theorem headNonWs_stripChars (l : List Char) :
    headNonWs (stripChars l) ∧ headNonWs (stripChars l).reverse := by
  refine ⟨?_, ?_⟩
  · intro c hc
    unfold stripChars at hc
    rw [List.head?_reverse] at hc
    have hsplit := List.takeWhile_append_dropWhile pws (l.dropWhile pws).reverse
    have hgl : ((l.dropWhile pws).reverse).getLast? = some c := by
      rw [← hsplit, List.getLast?_append, hc]
      rfl
    rw [List.getLast?_reverse] at hgl
    exact headNonWs_dropWhile l c hgl
  · intro c hc
    unfold stripChars at hc
    rw [List.reverse_reverse] at hc
    exact headNonWs_dropWhile (l.dropWhile pws).reverse c hc

theorem stripChars_idem (l : List Char) : stripChars (stripChars l) = stripChars l :=
  stripChars_eq_self _ (headNonWs_stripChars l).1 (headNonWs_stripChars l).2

theorem pyStrip_idem (s : String) : pyStrip (pyStrip s) = pyStrip s :=
  congrArg String.mk (stripChars_idem s.data)

theorem string_ne_empty_iff_data (s : String) : s ≠ "" ↔ s.data ≠ [] := by
  cases s with
  | mk d =>
    constructor
    · intro h hd
      exact h (by simpa using congrArg String.mk hd)
    · intro h hs
      apply h
      simpa using congrArg String.data hs

theorem goodText_pyStrip (s : String) (h : pyStrip s ≠ "") : goodText (pyStrip s) :=
  ⟨h, pyStrip_idem s⟩

theorem sepJoin_data_ne_nil (parts : List String) (hne : parts ≠ [])
    (hgood : ∀ p ∈ parts, p ≠ "") : (sepJoin parts).data ≠ [] := by
  match parts with
  | [] => exact absurd rfl hne
  | [p] =>
    simpa [sepJoin] using (string_ne_empty_iff_data p).mp (hgood p (by simp))
  | p :: q :: r =>
    have hp : p.data ≠ [] := (string_ne_empty_iff_data p).mp (hgood p (by simp))
    show (p ++ " " ++ sepJoin (q :: r)).data ≠ []
    simp only [String.data_append]
    intro h
    rcases List.append_eq_nil.mp (List.append_eq_nil.mp h).1 with ⟨h1, _⟩
    exact hp h1

theorem head?_sepJoin (p : String) (ps : List String) (hp : p ≠ "") :
    (sepJoin (p :: ps)).data.head? = p.data.head? := by
  cases ps with
  | nil => rfl
  | cons q r =>
    show ((p ++ " " ++ sepJoin (q :: r)).data).head? = p.data.head?
    simp only [String.data_append, List.append_assoc]
    exact List.head?_append_of_ne_nil _ ((string_ne_empty_iff_data p).mp hp)

theorem getLast?_sepJoin (parts : List String) (hne : parts ≠ [])
    (hgood : ∀ p ∈ parts, p ≠ "") :
    ∃ q ∈ parts, (sepJoin parts).data.getLast? = q.data.getLast? := by
  match parts with
  | [] => exact absurd rfl hne
  | [p] => exact ⟨p, by simp, rfl⟩
  | p :: q :: r =>
    have hrest : ∀ x ∈ q :: r, x ≠ "" := fun x hx => hgood x (List.mem_cons_of_mem p hx)
    obtain ⟨w, hw, hwl⟩ := getLast?_sepJoin (q :: r) (by simp) hrest
    refine ⟨w, List.mem_cons_of_mem p hw, ?_⟩
    have hjd : (sepJoin (q :: r)).data ≠ [] := sepJoin_data_ne_nil _ (by simp) hrest
    show ((p ++ " " ++ sepJoin (q :: r)).data).getLast? = w.data.getLast?
    rw [show (p ++ " " ++ sepJoin (q :: r)).data
        = (p ++ " ").data ++ (sepJoin (q :: r)).data from String.data_append _ _]
    rw [List.getLast?_append, ← hwl]
    rcases ho : (sepJoin (q :: r)).data.getLast? with _ | c
    · exact absurd (List.getLast?_eq_none_iff.mp ho) hjd
    · rfl

theorem pyStrip_sepJoin (parts : List String) (hne : parts ≠ [])
    (hgood : ∀ p ∈ parts, goodText p) : pyStrip (sepJoin parts) = sepJoin parts := by
  have h1 : headNonWs (sepJoin parts).data := by
    match parts with
    | [] => exact absurd rfl hne
    | p :: ps =>
      intro c hc
      rw [head?_sepJoin p ps (hgood p (by simp)).1] at hc
      have hfix : stripChars p.data = p.data := by
        have := (hgood p (by simp)).2
        simpa [pyStrip] using congrArg String.data this
      exact (headNonWs_of_stripChars_eq_self p.data hfix).1 c hc
  have h2 : headNonWs (sepJoin parts).data.reverse := by
    intro c hc
    rw [List.head?_reverse] at hc
    obtain ⟨q, hq, hql⟩ := getLast?_sepJoin parts hne (fun p hp => (hgood p hp).1)
    rw [hql] at hc
    have hfix : stripChars q.data = q.data := by
      have := (hgood q hq).2
      simpa [pyStrip] using congrArg String.data this
    exact (headNonWs_of_stripChars_eq_self q.data hfix).2 c (by rwa [List.head?_reverse])
  show (⟨stripChars (sepJoin parts).data⟩ : String) = sepJoin parts
  rw [stripChars_eq_self _ h1 h2]

/-! ### `merge_segments` agrees with the spec's description -/

theorem normalizeSeg_good (a : RawSeg) (n : NSeg) (h : normalizeSeg a = some n) :
    goodText n.text := by
  rcases ha : a.start? with _ | s <;> rcases hb : a.stop? with _ | e <;>
      simp only [normalizeSeg, ha, hb] at h <;>
      try exact Option.noConfusion h
  split_ifs at h with h1 h2
  have := Option.some.inj h
  rw [← this]
  exact goodText_pyStrip a.text h2

theorem normalize_goodText (segs : List RawSeg) (n : NSeg) (hn : n ∈ normalize segs) :
    goodText n.text := by
  obtain ⟨a, _, ha⟩ := List.mem_filterMap.mp hn
  exact normalizeSeg_good a n ha

theorem sepJoin_snoc (parts : List String) (t : String) (hne : parts ≠ []) :
    sepJoin (parts ++ [t]) = sepJoin parts ++ " " ++ t := by
  match parts with
  | [] => exact absurd rfl hne
  | [p] => rfl
  | p :: q :: r =>
    show sepJoin (p :: ((q :: r) ++ [t])) = (p ++ " " ++ sepJoin (q :: r)) ++ " " ++ t
    have hq : (q :: r) ++ [t] = q :: (r ++ [t]) := rfl
    calc sepJoin (p :: ((q :: r) ++ [t]))
        = p ++ " " ++ sepJoin ((q :: r) ++ [t]) := by
          rw [hq]
          rfl
      _ = p ++ " " ++ (sepJoin (q :: r) ++ " " ++ t) := by
          rw [sepJoin_snoc (q :: r) t (by simp)]
      _ = (p ++ " " ++ sepJoin (q :: r)) ++ " " ++ t := by
          simp [String.append_assoc]

theorem mergeLoop_spec (t : ℚ) (rest : List NSeg) :
    ∀ (curStart curEnd : ℚ) (parts : List String), parts ≠ [] →
      (∀ p ∈ parts, goodText p) → (∀ n ∈ rest, goodText n.text) →
      (mergeLoop t curStart curEnd parts rest).map projM
        = specMergeFold t ⟨curStart, curEnd, sepJoin parts⟩ (rest.map projN) := by
  induction rest with
  | nil =>
    intro s e parts hne hgood _
    simp only [mergeLoop, specMergeFold, List.map_cons, List.map_nil, projM]
    rw [pyStrip_sepJoin parts hne hgood]
  | cons seg rest ih =>
    intro s e parts hne hgood hrest
    have hsegGood : goodText seg.text := hrest seg (by simp)
    have hrest' : ∀ n ∈ rest, goodText n.text :=
      fun n hn => hrest n (List.mem_cons_of_mem seg hn)
    simp only [mergeLoop, List.map_cons, specMergeFold, projN]
    by_cases hgap : seg.start - e ≤ t
    · rw [if_pos hgap, if_pos hgap]
      rw [ih s (max e seg.stop) (parts ++ [seg.text]) (by simp)
        (by
          intro p hp
          rcases List.mem_append.mp hp with hp' | hp'
          · exact hgood p hp'
          · rw [List.mem_singleton.mp hp']
            exact hsegGood)
        hrest']
      rw [sepJoin_snoc parts seg.text hne]
    · rw [if_neg hgap, if_neg hgap]
      simp only [List.map_cons, projM]
      rw [pyStrip_sepJoin parts hne hgood]
      rw [ih seg.start seg.stop [seg.text] (by simp)
        (by
          intro p hp
          rw [List.mem_singleton.mp hp]
          exact hsegGood)
        hrest']
      rfl

theorem merge_segments_eq_core (segs : List RawSeg) (t : ℚ) :
    merge_segments segs t = mergeCore (normalize segs) t := by
  by_cases h : segs = []
  · subst h
    rfl
  · rw [merge_segments, if_neg h]
    rfl

theorem merge_segments_spec (t : ℚ) (segs : List RawSeg) :
    (merge_segments segs t).map projM = specIntraMerge t ((normalize segs).map projN) := by
  rw [merge_segments_eq_core]
  unfold mergeCore specIntraMerge
  rw [← map_pySort nsegLt specLt projN (fun a b => rfl)]
  rcases hs : pySort nsegLt (normalize segs) with _ | ⟨f, r⟩
  · simp
  · have hmem : ∀ n ∈ pySort nsegLt (normalize segs), goodText n.text := by
      intro n hn
      exact normalize_goodText segs n ((pySort_perm nsegLt (normalize segs)).mem_iff.mp hn)
    simp only [List.map_cons]
    rw [mergeLoop_spec t r f.start f.stop [f.text] (by simp)
      (by
        intro p hp
        rw [List.mem_singleton.mp hp]
        exact hmem f (by rw [hs]; simp))
      (fun n hn => hmem n (by rw [hs]; exact List.mem_cons_of_mem f hn))]
    rfl

theorem normalize_filter (p : RawSeg → Bool)
    (hp : ∀ s, p s = false → normalizeSeg s = none) (segs : List RawSeg) :
    normalize (segs.filter p) = normalize segs := by
  induction segs with
  | nil => rfl
  | cons a t ih =>
    by_cases ha : p a = true
    · rw [List.filter_cons_of_pos ha]
      show (a :: t.filter p).filterMap normalizeSeg = (a :: t).filterMap normalizeSeg
      rw [List.filterMap_cons, List.filterMap_cons]
      cases normalizeSeg a
      · exact ih
      · rw [show (t.filter p).filterMap normalizeSeg = t.filterMap normalizeSeg from ih]
    · have ha' : p a = false := by simpa using ha
      rw [List.filter_cons_of_neg (by simp [ha'])]
      show (t.filter p).filterMap normalizeSeg = (a :: t).filterMap normalizeSeg
      rw [List.filterMap_cons, hp a ha']
      exact ih

theorem normalizeSeg_of_not_wellTimed (s : RawSeg) (h : wellTimedSeg s = false) :
    normalizeSeg s = none := by
  rcases ha : s.start? with _ | a <;> rcases hb : s.stop? with _ | b <;>
      simp only [wellTimedSeg, ha, hb] at h <;>
      simp only [normalizeSeg, ha, hb]
  have hba : b < a := lt_of_not_le (by simpa using h)
  rw [if_pos hba]

theorem normalizeSeg_of_blank (s : RawSeg) (h : blankTextSeg s = true) :
    normalizeSeg s = none := by
  have hstrip : pyStrip s.text = "" := by simpa [blankTextSeg] using h
  rcases ha : s.start? with _ | a <;> rcases hb : s.stop? with _ | b <;>
      simp only [normalizeSeg, ha, hb]
  by_cases hlt : b < a
  · rw [if_pos hlt]
  · rw [if_neg hlt, if_pos hstrip]

/-! ### Pool invariants -/

theorem get_cons_eraseIdx (l : List α) : ∀ (j : ℕ) (h : j < l.length),
    (l.get ⟨j, h⟩ :: l.eraseIdx j).Perm l := by
  induction l with
  | nil => intro j h; simp at h
  | cons a t ih =>
    intro j h
    cases j with
    | zero => exact List.Perm.refl _
    | succ j' =>
      have hj' : j' < t.length := by simpa using h
      show (t.get ⟨j', hj'⟩ :: a :: t.eraseIdx j').Perm (a :: t)
      exact (List.Perm.swap a _ _).trans (List.Perm.cons a (ih j' hj'))

theorem poolLoop_perm (pool : SubprocessPool) (env : IsolatedRun) (oracle : ℕ → ℕ)
    (hw : 1 ≤ pool.maxWorkers) :
    ∀ (fuel : ℕ) (pending running : List (List String)) (results : List ProcResult),
      fuel = pending.length + running.length →
      (poolLoop pool env oracle fuel pending running results).Perm
        (results ++ (pending ++ running).map (finishResult pool env)) := by
  intro fuel
  induction fuel with
  | zero =>
    intro pending running results hf
    have hp : pending = [] := List.length_eq_zero.mp (by omega)
    have hr : running = [] := List.length_eq_zero.mp (by omega)
    subst hp
    subst hr
    simp [poolLoop]
  | succ fuel ih =>
    intro pending running results hf
    rw [poolLoop]
    rcases hrun : running ++ pending.take (min (pool.maxWorkers - running.length) pending.length)
      with _ | ⟨c, cs⟩
    · -- no running, nothing startable: both lists must be empty
      rcases List.append_eq_nil.mp hrun with ⟨hr, ht⟩
      subst hr
      cases pending with
      | nil => simp
      | cons p0 pt =>
        exfalso
        have hk : 1 ≤ min (pool.maxWorkers - ([] : List (List String)).length)
            (p0 :: pt).length := by
          simp only [List.length_nil, Nat.sub_zero, le_min_iff]
          exact ⟨hw, by simp⟩
        rcases Nat.exists_eq_add_of_le hk with ⟨m, hm⟩
        rw [hm, Nat.add_comm 1 m] at ht
        simp [List.take_succ_cons] at ht
    · -- reap the oracle-chosen finished process and recurse
      have hjlt : oracle results.length % (c :: cs).length < (c :: cs).length :=
        Nat.mod_lt _ (Nat.succ_pos cs.length)
      have hkle : min (pool.maxWorkers - running.length) pending.length ≤ pending.length :=
        min_le_right _ _
      have hlen : (c :: cs).length = running.length +
          min (pool.maxWorkers - running.length) pending.length := by
        rw [← hrun]
        simp [min_le_right]
      have hfuel : fuel = (pending.drop (min (pool.maxWorkers - running.length) pending.length)).length
          + ((c :: cs).eraseIdx (oracle results.length % (c :: cs).length)).length := by
        rw [List.length_eraseIdx_of_lt hjlt, List.length_drop]
        simp only [List.length_cons] at hlen ⊢
        omega
      have hperm1 : (finishResult pool env ((c :: cs).get ⟨_, hjlt⟩)
          :: ((c :: cs).eraseIdx (oracle results.length % (c :: cs).length)).map
            (finishResult pool env)).Perm ((c :: cs).map (finishResult pool env)) := by
        have := (get_cons_eraseIdx (c :: cs) _ hjlt).map (finishResult pool env)
        simpa using this
      refine (ih _ _ _ hfuel).trans ?_
      rw [List.append_assoc, List.singleton_append, List.map_append]
      refine List.Perm.append_left results ?_
      refine List.Perm.trans List.perm_middle.symm ?_
      refine List.Perm.trans (List.Perm.append_left _ hperm1) ?_
      rw [← hrun, List.map_append, List.map_append]
      refine List.Perm.trans (List.Perm.append_left _ List.perm_append_comm) ?_
      rw [← List.append_assoc]
      refine List.Perm.append_right _ ?_
      refine List.Perm.trans List.perm_append_comm ?_
      rw [← List.map_append, List.take_append_drop]

theorem pool_run_perm (pool : SubprocessPool) (env : IsolatedRun) (oracle : ℕ → ℕ)
    (hw : 1 ≤ pool.maxWorkers) (commands : List (List String)) :
    (pool_run pool env oracle commands).Perm (commands.map (finishResult pool env)) := by
  have := poolLoop_perm pool env oracle hw commands.length commands [] [] (by simp)
  simpa [pool_run] using this

/-! ### Downloader invariants -/

theorem lookup_append_some (l l' : List (String × String)) (k : String) (v : String)
    (h : l.lookup k = some v) : (l ++ l').lookup k = some v := by
  induction l with
  | nil => simp [List.lookup] at h
  | cons a t ih =>
    rcases a with ⟨ka, va⟩
    by_cases hk : (k == ka) = true
    · simp only [List.cons_append, List.lookup, hk] at h ⊢
      exact h
    · have hk' : (k == ka) = false := by simpa using hk
      simp only [List.cons_append, List.lookup, hk'] at h ⊢
      exact ih h

theorem lookup_append_none (l l' : List (String × String)) (k : String)
    (h : l.lookup k = none) : (l ++ l').lookup k = l'.lookup k := by
  induction l with
  | nil => rfl
  | cons a t ih =>
    rcases a with ⟨ka, va⟩
    by_cases hk : (k == ka) = true
    · simp only [List.lookup, hk] at h
      exact Option.noConfusion h
    · have hk' : (k == ka) = false := by simpa using hk
      simp only [List.cons_append, List.lookup, hk'] at h ⊢
      exact ih h

theorem lookup_append_single_ne (l : List (String × String)) (k rel content : String)
    (h : k ≠ rel) : (l ++ [(rel, content)]).lookup k = l.lookup k := by
  rcases hl : l.lookup k with _ | v
  · rw [lookup_append_none l _ k hl]
    have hkr : (k == rel) = false := beq_eq_false_iff_ne.mpr h
    simp [List.lookup, hkr]
  · exact lookup_append_some l _ k v hl

theorem finalize_preserves (staging : List (String × String)) :
    ∀ (dest : List (String × String)) (p v : String), dest.lookup p = some v →
      ((finalize_transfer staging dest).1).lookup p = some v := by
  induction staging with
  | nil => intro dest p v h; exact h
  | cons f rest ih =>
    intro dest p v h
    rcases f with ⟨rel, content⟩
    rw [finalize_transfer]
    by_cases hr : (dest.lookup rel).isSome
    · rw [if_pos hr]
      exact ih dest p v h
    · rw [if_neg hr]
      exact ih (dest ++ [(rel, content)]) p v (lookup_append_some dest _ p v h)

theorem finalize_mem_isSome (staging : List (String × String)) :
    ∀ (dest : List (String × String)) (f : String × String), f ∈ staging →
      (((finalize_transfer staging dest).1).lookup f.1).isSome := by
  induction staging with
  | nil => intro dest f hf; simp at hf
  | cons g rest ih =>
    intro dest f hf
    rcases g with ⟨rel, content⟩
    rw [finalize_transfer]
    by_cases hr : (dest.lookup rel).isSome
    · rw [if_pos hr]
      rcases List.mem_cons.mp hf with rfl | hf'
      · rcases ho : dest.lookup rel with _ | v
        · rw [ho] at hr; simp at hr
        · show ((finalize_transfer rest dest).1.lookup rel).isSome
          rw [finalize_preserves rest dest rel v ho]
          rfl
      · exact ih dest f hf'
    · rw [if_neg hr]
      rcases List.mem_cons.mp hf with rfl | hf'
      · have hnone : dest.lookup rel = none := by
          rcases ho : dest.lookup rel with _ | v
          · rfl
          · rw [ho] at hr; simp at hr
        have hsing : ((dest ++ [(rel, content)]).lookup rel) = some content := by
          rw [lookup_append_none dest _ rel hnone]
          simp [List.lookup]
        show ((finalize_transfer rest (dest ++ [(rel, content)])).1.lookup rel).isSome
        rw [finalize_preserves rest _ rel content hsing]
        rfl
      · exact ih (dest ++ [(rel, content)]) f hf'

theorem length_filter_add_length_filter_not (l : List α) (p : α → Bool) :
    (l.filter p).length + (l.filter (fun a => !(p a))).length = l.length := by
  induction l with
  | nil => rfl
  | cons a t ih =>
    by_cases h : p a = true
    · rw [List.filter_cons_of_pos h, List.filter_cons_of_neg (by simp [h])]
      simp only [List.length_cons]
      omega
    · have h' : p a = false := by simpa using h
      rw [List.filter_cons_of_neg (by simp [h']), List.filter_cons_of_pos (by simp [h'])]
      simp only [List.length_cons]
      omega

theorem finalize_counts (staging : List (String × String)) :
    ∀ (dest : List (String × String)), (staging.map Prod.fst).Nodup →
      (finalize_transfer staging dest).2.1
          = (staging.filter (fun f => ((dest.lookup f.1).isNone))).length
        ∧ (finalize_transfer staging dest).2.2
          = (staging.filter (fun f => ((dest.lookup f.1).isSome))).length := by
  induction staging with
  | nil => intro dest _; exact ⟨rfl, rfl⟩
  | cons g rest ih =>
    intro dest hnd
    rcases g with ⟨rel, content⟩
    have hmap : (rel :: rest.map Prod.fst).Nodup := by
      simpa only [List.map_cons] using hnd
    have hrelnotin : rel ∉ rest.map Prod.fst := (List.nodup_cons.mp hmap).1
    have hnd' : (rest.map Prod.fst).Nodup := (List.nodup_cons.mp hmap).2
    rw [finalize_transfer]
    by_cases ho : dest.lookup rel = none
    · rw [if_neg (by simp [ho])]
      obtain ⟨h1, h2⟩ := ih (dest ++ [(rel, content)]) hnd'
      have hfiltN : rest.filter (fun f => (((dest ++ [(rel, content)]).lookup f.1).isNone))
          = rest.filter (fun f => ((dest.lookup f.1).isNone)) := by
        apply List.filter_congr
        intro f hf
        have hne : f.1 ≠ rel := fun hh => hrelnotin (hh ▸ List.mem_map_of_mem Prod.fst hf)
        rw [lookup_append_single_ne dest f.1 rel content hne]
      have hfiltS : rest.filter (fun f => (((dest ++ [(rel, content)]).lookup f.1).isSome))
          = rest.filter (fun f => ((dest.lookup f.1).isSome)) := by
        apply List.filter_congr
        intro f hf
        have hne : f.1 ≠ rel := fun hh => hrelnotin (hh ▸ List.mem_map_of_mem Prod.fst hf)
        rw [lookup_append_single_ne dest f.1 rel content hne]
      constructor
      · show (finalize_transfer rest (dest ++ [(rel, content)])).2.1 + 1 = _
        rw [h1, hfiltN, List.filter_cons_of_pos (by simp [ho])]
        simp
      · show (finalize_transfer rest (dest ++ [(rel, content)])).2.2 = _
        rw [h2, hfiltS, List.filter_cons_of_neg (by simp [ho])]
    · have hv : (dest.lookup rel).isSome := by
        rcases hd : dest.lookup rel with _ | v
        · exact absurd hd ho
        · rfl
      rw [if_pos hv]
      obtain ⟨h1, h2⟩ := ih dest hnd'
      constructor
      · show (finalize_transfer rest dest).2.1 = _
        rw [h1, List.filter_cons_of_neg (by simp [Option.isNone_iff_eq_none, ho])]
      · show (finalize_transfer rest dest).2.2 + 1 = _
        rw [h2, List.filter_cons_of_pos (by simpa using hv)]
        simp

theorem finalize_moves (staging : List (String × String)) :
    ∀ (dest : List (String × String)), (staging.map Prod.fst).Nodup →
      ∀ f ∈ staging, dest.lookup f.1 = none →
        ((finalize_transfer staging dest).1).lookup f.1 = some f.2 := by
  induction staging with
  | nil => intro dest _ f hf _; simp at hf
  | cons g rest ih =>
    intro dest hnd f hf hmiss
    rcases g with ⟨rel, content⟩
    have hmap : (rel :: rest.map Prod.fst).Nodup := by
      simpa only [List.map_cons] using hnd
    have hrelnotin : rel ∉ rest.map Prod.fst := (List.nodup_cons.mp hmap).1
    have hnd' : (rest.map Prod.fst).Nodup := (List.nodup_cons.mp hmap).2
    rw [finalize_transfer]
    by_cases hr : (dest.lookup rel).isSome
    · rw [if_pos hr]
      rcases List.mem_cons.mp hf with rfl | hf'
      · rw [hmiss] at hr
        exact absurd hr (by simp)
      · exact ih dest hnd' f hf' hmiss
    · rw [if_neg hr]
      rcases List.mem_cons.mp hf with rfl | hf'
      · have hnone : dest.lookup rel = none := hmiss
        have hsing : ((dest ++ [(rel, content)]).lookup rel) = some content := by
          rw [lookup_append_none dest _ rel hnone]
          simp [List.lookup]
        show ((finalize_transfer rest (dest ++ [(rel, content)])).1.lookup rel) = some content
        exact finalize_preserves rest _ rel content hsing
      · have hne : f.1 ≠ rel := fun hh => hrelnotin (hh ▸ List.mem_map_of_mem Prod.fst hf')
        have hmiss' : (dest ++ [(rel, content)]).lookup f.1 = none := by
          rw [lookup_append_single_ne dest f.1 rel content hne, hmiss]
        exact ih (dest ++ [(rel, content)]) hnd' f hf' hmiss'

theorem joinNL_data (lines : List String) :
    (joinNL lines).data = joinNLData (lines.map String.data) := by
  match lines with
  | [] => rfl
  | [p] => rfl
  | p :: q :: r =>
    show (p ++ "\n" ++ joinNL (q :: r)).data
        = p.data ++ '\n' :: joinNLData ((q :: r).map String.data)
    rw [String.data_append, String.data_append, joinNL_data (q :: r)]
    rw [show ("\n" : String).data = ['\n'] from rfl]
    rw [List.append_assoc, List.singleton_append]

theorem count_joinNLData (lines : List (List Char)) (hne : lines ≠ [])
    (hnl : ∀ l ∈ lines, '\n' ∉ l) :
    (joinNLData lines).count '\n' = lines.length - 1 := by
  match lines with
  | [] => exact absurd rfl hne
  | [p] =>
    show p.count '\n' = 0
    exact List.count_eq_zero.mpr (hnl p (by simp))
  | p :: q :: r =>
    show (p ++ '\n' :: joinNLData (q :: r)).count '\n' = (q :: r).length
    rw [List.count_append, List.count_cons_self,
      List.count_eq_zero.mpr (hnl p (by simp)),
      count_joinNLData (q :: r) (by simp) (fun l hl => hnl l (List.mem_cons_of_mem p hl))]
    have : 1 ≤ (q :: r).length := by simp
    omega

theorem mem_of_mem_takeWhile (p : α → Bool) (l : List α) (a : α)
    (h : a ∈ l.takeWhile p) : a ∈ l := by
  have hsplit := List.takeWhile_append_dropWhile p l
  rw [← hsplit]
  exact List.mem_append_left _ h

theorem mem_of_mem_dropWhile (p : α → Bool) (l : List α) (a : α)
    (h : a ∈ l.dropWhile p) : a ∈ l := by
  have hsplit := List.takeWhile_append_dropWhile p l
  rw [← hsplit]
  exact List.mem_append_right _ h

theorem mem_dropWhile_of_mem (l : List Char) (c : Char) (hc : c ∈ l) (hcp : pws c = false) :
    c ∈ l.dropWhile pws := by
  induction l with
  | nil => simp at hc
  | cons a t ih =>
    by_cases ha : pws a = true
    · rw [List.dropWhile_cons, if_pos ha]
      rcases List.mem_cons.mp hc with rfl | hct
      · rw [ha] at hcp
        exact absurd hcp (by simp)
      · exact ih hct
    · rw [List.dropWhile_cons, if_neg ha]
      exact hc

theorem takeWhile_append_of_mem_not (l₁ l₂ : List Char)
    (hex : ∃ c ∈ l₁, pws c = false) :
    (l₁ ++ l₂).takeWhile pws = l₁.takeWhile pws := by
  induction l₁ with
  | nil =>
    rcases hex with ⟨c, hc, _⟩
    simp at hc
  | cons a t ih =>
    by_cases ha : pws a = true
    · rcases hex with ⟨c, hc, hcp⟩
      have hct : c ∈ t := by
        rcases List.mem_cons.mp hc with rfl | h
        · rw [ha] at hcp
          exact absurd hcp (by simp)
        · exact h
      rw [List.cons_append, List.takeWhile_cons, List.takeWhile_cons, if_pos ha, if_pos ha,
        ih ⟨c, hct, hcp⟩]
    · rw [List.cons_append, List.takeWhile_cons, List.takeWhile_cons, if_neg ha, if_neg ha]

theorem dropWhile_append_of_mem_not (l₁ l₂ : List Char)
    (hex : ∃ c ∈ l₁, pws c = false) :
    (l₁ ++ l₂).dropWhile pws = l₁.dropWhile pws ++ l₂ := by
  induction l₁ with
  | nil =>
    rcases hex with ⟨c, hc, _⟩
    simp at hc
  | cons a t ih =>
    by_cases ha : pws a = true
    · rcases hex with ⟨c, hc, hcp⟩
      have hct : c ∈ t := by
        rcases List.mem_cons.mp hc with rfl | h
        · rw [ha] at hcp
          exact absurd hcp (by simp)
        · exact h
      rw [List.cons_append, List.dropWhile_cons, List.dropWhile_cons, if_pos ha, if_pos ha,
        ih ⟨c, hct, hcp⟩]
    · rw [List.cons_append, List.dropWhile_cons, List.dropWhile_cons, if_neg ha, if_neg ha,
        List.cons_append]

theorem count_dropWhile_pws (m : List Char) (h : '\n' ∉ m.takeWhile pws) :
    (m.dropWhile pws).count '\n' = m.count '\n' := by
  conv_rhs => rw [← List.takeWhile_append_dropWhile pws m]
  rw [List.count_append, List.count_eq_zero.mpr h, Nat.zero_add]

theorem takeWhile_joinNLData (l₁ : List Char) (rest : List (List Char))
    (hex : ∃ c ∈ l₁, pws c = false) :
    (joinNLData (l₁ :: rest)).takeWhile pws = l₁.takeWhile pws := by
  cases rest with
  | nil => rfl
  | cons q r =>
    show (l₁ ++ '\n' :: joinNLData (q :: r)).takeWhile pws = l₁.takeWhile pws
    exact takeWhile_append_of_mem_not _ _ hex

theorem dropWhile_joinNLData (l₁ : List Char) (rest : List (List Char))
    (hex : ∃ c ∈ l₁, pws c = false) :
    (joinNLData (l₁ :: rest)).dropWhile pws = joinNLData ((l₁.dropWhile pws) :: rest) := by
  cases rest with
  | nil => rfl
  | cons q r =>
    show (l₁ ++ '\n' :: joinNLData (q :: r)).dropWhile pws
        = l₁.dropWhile pws ++ '\n' :: joinNLData (q :: r)
    exact dropWhile_append_of_mem_not _ _ hex

theorem joinNLData_snoc (ls : List (List Char)) (x : List Char) (hne : ls ≠ []) :
    joinNLData (ls ++ [x]) = joinNLData ls ++ '\n' :: x := by
  match ls with
  | [] => exact absurd rfl hne
  | [p] => rfl
  | p :: q :: r =>
    show p ++ '\n' :: joinNLData ((q :: r) ++ [x])
        = (p ++ '\n' :: joinNLData (q :: r)) ++ '\n' :: x
    rw [joinNLData_snoc (q :: r) x (by simp)]
    simp

theorem joinNLData_reverse (ls : List (List Char)) :
    (joinNLData ls).reverse = joinNLData (ls.reverse.map List.reverse) := by
  match ls with
  | [] => rfl
  | [p] => rfl
  | p :: q :: r =>
    have hmapne : ((q :: r).reverse.map List.reverse) ≠ [] := by simp
    calc (joinNLData (p :: q :: r)).reverse
        = (joinNLData (q :: r)).reverse ++ '\n' :: p.reverse := by
          show (p ++ '\n' :: joinNLData (q :: r)).reverse = _
          rw [List.reverse_append, List.reverse_cons]
          simp
      _ = joinNLData ((q :: r).reverse.map List.reverse) ++ '\n' :: p.reverse := by
          rw [joinNLData_reverse (q :: r)]
      _ = joinNLData (((q :: r).reverse.map List.reverse) ++ [p.reverse]) := by
          rw [joinNLData_snoc _ _ hmapne]
      _ = joinNLData ((p :: q :: r).reverse.map List.reverse) := by
          congr 1
          simp

theorem count_stripChars_joinNLData (lines : List (List Char)) (hne : lines ≠ [])
    (hgood : ∀ l ∈ lines, '\n' ∉ l ∧ ∃ c ∈ l, pws c = false) :
    (stripChars (joinNLData lines)).count '\n' = (joinNLData lines).count '\n' := by
  match lines with
  | [] => exact absurd rfl hne
  | l₁ :: rest =>
    obtain ⟨hnl₁, hex₁⟩ := hgood l₁ (by simp)
    have h1 : ((joinNLData (l₁ :: rest)).dropWhile pws).count '\n'
        = (joinNLData (l₁ :: rest)).count '\n' := by
      apply count_dropWhile_pws
      rw [takeWhile_joinNLData l₁ rest hex₁]
      intro hmem
      exact hnl₁ (mem_of_mem_takeWhile pws l₁ _ hmem)
    have hA : (joinNLData (l₁ :: rest)).dropWhile pws
        = joinNLData (l₁.dropWhile pws :: rest) := dropWhile_joinNLData l₁ rest hex₁
    have hrev : (joinNLData (l₁.dropWhile pws :: rest)).reverse
        = joinNLData (((l₁.dropWhile pws :: rest).reverse).map List.reverse) :=
      joinNLData_reverse _
    have hgood₂ : ∀ l ∈ ((l₁.dropWhile pws :: rest).reverse).map List.reverse,
        '\n' ∉ l ∧ ∃ c ∈ l, pws c = false := by
      intro l hl
      rcases List.mem_map.mp hl with ⟨l0, hl0, rfl⟩
      have hl0' : l0 ∈ l₁.dropWhile pws :: rest := List.mem_reverse.mp hl0
      rcases List.mem_cons.mp hl0' with rfl | hl0''
      · constructor
        · intro hmem
          exact hnl₁ (mem_of_mem_dropWhile pws l₁ _ (List.mem_reverse.mp hmem))
        · rcases hex₁ with ⟨c, hc, hcp⟩
          exact ⟨c, List.mem_reverse.mpr (mem_dropWhile_of_mem l₁ c hc hcp), hcp⟩
      · obtain ⟨hnl0, hex0⟩ := hgood l0 (List.mem_cons_of_mem l₁ hl0'')
        constructor
        · intro hmem
          exact hnl0 (List.mem_reverse.mp hmem)
        · rcases hex0 with ⟨c, hc, hcp⟩
          exact ⟨c, List.mem_reverse.mpr hc, hcp⟩
    rcases hsh : ((l₁.dropWhile pws :: rest).reverse).map List.reverse with _ | ⟨m₁, mrest⟩
    · exact absurd hsh (by simp)
    · obtain ⟨hnlm, hexm⟩ := hgood₂ m₁ (by rw [hsh]; simp)
      have h2 : ((joinNLData (m₁ :: mrest)).dropWhile pws).count '\n'
          = (joinNLData (m₁ :: mrest)).count '\n' := by
        apply count_dropWhile_pws
        rw [takeWhile_joinNLData m₁ mrest hexm]
        intro hmem
        exact hnlm (mem_of_mem_takeWhile pws m₁ _ hmem)
      calc (stripChars (joinNLData (l₁ :: rest))).count '\n'
          = ((((joinNLData (l₁ :: rest)).dropWhile pws).reverse.dropWhile pws).reverse).count '\n' := rfl
        _ = (((joinNLData (l₁ :: rest)).dropWhile pws).reverse.dropWhile pws).count '\n' :=
            List.count_reverse _ _
        _ = ((joinNLData (m₁ :: mrest)).dropWhile pws).count '\n' := by
            rw [hA, hrev, hsh]
        _ = (joinNLData (m₁ :: mrest)).count '\n' := h2
        _ = ((joinNLData (l₁.dropWhile pws :: rest)).reverse).count '\n' := by
            rw [hrev, hsh]
        _ = (joinNLData (l₁.dropWhile pws :: rest)).count '\n' := List.count_reverse _ _
        _ = (joinNLData (l₁ :: rest)).count '\n' := by
            rw [← hA, h1]

/-! ### Claim theorems -/

/-- C1 (counterexample): the cross-channel merge does **not** check that the
two transcripts belong to the same call: merging a customer transcript and a
store transcript whose every identifying field (audio file path, text,
duration, segments) comes from a different call still produces a conversation
(`isSome`), instead of skipping the call with an error as the claim states. -/
theorem C1_counterexample :
    (postprocessCall (some custOtherCall) (some storeHello) (some tsExample) "call9").isSome
      = true := rfl

/-- C1 (amended): before merging, the only per-call validation is that the
three inputs (`customer.json`, `store.json`, `timestamp.json`) are present
and readable: with all three present the merge is total and always produces a
conversation regardless of the transcripts' contents; a missing or unreadable
input makes that call be skipped (`none`); and the batch processes every call
independently — its output length is exactly the number of calls whose three
inputs are present, so skipped calls never crash the batch. -/
theorem C1_no_identifier_check :
    (∀ (c s : Transcript) (t : Timestamp) (name : String),
        (postprocessCall (some c) (some s) (some t) name).isSome = true)
    ∧ (∀ (c s : Option Transcript) (t : Option Timestamp) (name : String),
        postprocessCall none s t name = none
        ∧ postprocessCall c none t name = none
        ∧ postprocessCall c s none name = none)
    ∧ (∀ calls : List CallInputs,
        (postprocess_transcripts calls).length
          = (calls.filter fun ci =>
              ci.customer.isSome && ci.store.isSome && ci.timestamp.isSome).length) := by
  have hsome : ∀ (c s : Option Transcript) (t : Option Timestamp) (name : String),
      (postprocessCall c s t name).isSome = (c.isSome && s.isSome && t.isSome) := by
    intro c s t name
    rcases c with _ | c <;> rcases s with _ | s <;> rcases t with _ | t <;> rfl
  refine ⟨?_, ?_, ?_⟩
  · intro c s t name
    rw [hsome]
    rfl
  · intro c s t name
    refine ⟨?_, ?_, ?_⟩
    · rcases s with _ | s <;> rcases t with _ | t <;> rfl
    · rcases c with _ | c <;> rcases t with _ | t <;> rfl
    · rcases c with _ | c <;> rcases s with _ | s <;> rfl
  · intro calls
    induction calls with
    | nil => rfl
    | cons ci rest ih =>
      show (List.filterMap _ (ci :: rest)).length = _
      rw [List.filterMap_cons]
      by_cases hp : (ci.customer.isSome && ci.store.isSome && ci.timestamp.isSome) = true
      · have hs : (postprocessCall ci.customer ci.store ci.timestamp ci.name).isSome = true := by
          rw [hsome]
          exact hp
        rcases ho : postprocessCall ci.customer ci.store ci.timestamp ci.name with _ | conv
        · rw [ho] at hs
          exact absurd hs (by simp)
        · show (conv :: postprocess_transcripts rest).length = _
          rw [List.filter_cons]
          simp only [hp, if_true, List.length_cons]
          rw [ih]
      · have hp' : (ci.customer.isSome && ci.store.isSome && ci.timestamp.isSome) = false := by
          simpa using hp
        have hs : (postprocessCall ci.customer ci.store ci.timestamp ci.name).isSome = false := by
          rw [hsome]
          exact hp'
        rcases ho : postprocessCall ci.customer ci.store ci.timestamp ci.name with _ | conv
        · show (postprocess_transcripts rest).length = _
          rw [List.filter_cons]
          simp only [hp', Bool.false_eq_true, if_false]
          exact ih
        · rw [ho] at hs
          exact absurd hs (by simp)

/-- C2: for every gap threshold `t ≥ 0` the intra-channel merge (a) agrees,
segment for segment on `(start, end, text)`, with the spec's description —
sort the normalized segments by `(start, end)`, then fold left-to-right,
extending the accumulator (`end = max`, texts joined with a single space)
when `gap = next.start - acc.end ≤ t` and emitting it otherwise, with a final
emit; (b) drops segments with unparseable timing or `end < start` during
normalization instead of failing (`merge_segments` is total and insensitive
to their presence); and (c) on `[(0,1,"a"), (1,2,"b"), (5,6,"c")]` with
`t = 0` returns `[(0,2,"a b"), (5,6,"c")]`. -/
theorem C2_intra_merge (t : ℚ) (ht : 0 ≤ t) :
    (∀ segs, (merge_segments segs t).map projM = specIntraMerge t ((normalize segs).map projN))
    ∧ (∀ segs, merge_segments (segs.filter wellTimedSeg) t = merge_segments segs t)
    ∧ merge_segments [⟨some 0, some 1, "a"⟩, ⟨some 1, some 2, "b"⟩, ⟨some 5, some 6, "c"⟩] 0
        = [⟨0, 2, 1, "a b"⟩, ⟨5, 6, 11/2, "c"⟩] := by
  refine ⟨fun segs => merge_segments_spec t segs, ?_, ?_⟩
  · intro segs
    rw [merge_segments_eq_core, merge_segments_eq_core,
      normalize_filter wellTimedSeg normalizeSeg_of_not_wellTimed]
  · have ha : pyStrip "a" = "a" := by decide
    have hb : pyStrip "b" = "b" := by decide
    have hab : pyStrip ("a" ++ " " ++ "b") = "a b" := by decide
    have hc : pyStrip "c" = "c" := by decide
    rw [merge_segments_eq_core]
    norm_num [mergeCore, normalize, normalizeSeg, List.filterMap_cons, pySort, insertStable,
      nsegLt, keyLt, Prod.Lex.lt_iff, mergeLoop, sepJoin, ha, hb, hc, hab]

/-- Witness for C2 at the concrete threshold `t = 0`. -/
theorem C2_intra_merge_witness :
    (0 : ℚ) ≤ 0
    ∧ merge_segments [⟨some 0, some 1, "a"⟩, ⟨some 1, some 2, "b"⟩, ⟨some 5, some 6, "c"⟩] 0
        = [⟨0, 2, 1, "a b"⟩, ⟨5, 6, 11/2, "c"⟩] :=
  ⟨by decide, (C2_intra_merge 0 (by decide)).2.2⟩

/-- C3: for every command list, every worker-ceiling argument and every
completion order the scheduler may produce, `SubprocessPool.run` returns
exactly one result per submitted command, and the multiset of
`(command, exit status)` pairs equals the multiset each command would produce
run in isolation; the empty command list yields the empty result list, and
the constructor clamps the worker ceiling to at least 1. -/
theorem C3_pool_run (w : ℤ) (capO capE : Bool) (env : IsolatedRun) (oracle : ℕ → ℕ)
    (cmds : List (List String)) :
    (pool_run (mkSubprocessPool w capO capE) env oracle cmds).length = cmds.length
    ∧ ((pool_run (mkSubprocessPool w capO capE) env oracle cmds).map
        (fun r => (r.cmd, r.rc))).Perm (cmds.map fun c => (c, env.rc c))
    ∧ pool_run (mkSubprocessPool w capO capE) env oracle [] = []
    ∧ (mkSubprocessPool w capO capE).maxWorkers = (max 1 w).toNat
    ∧ 1 ≤ (mkSubprocessPool w capO capE).maxWorkers := by
  have hw : 1 ≤ (mkSubprocessPool w capO capE).maxWorkers := by
    show 1 ≤ (max 1 w).toNat
    omega
  have hp := pool_run_perm (mkSubprocessPool w capO capE) env oracle hw cmds
  refine ⟨?_, ?_, rfl, rfl, hw⟩
  · rw [hp.length_eq, List.length_map]
  · have := hp.map fun r => (r.cmd, r.rc)
    rw [List.map_map] at this
    exact this

/-- C4: the transfer manifest is exactly the set of remote files with no local
counterpart at the corresponding relative path (an existence check only), so a
second `download` run against the unchanged remote tree after a completed
first run produces an empty manifest, performs no streaming transfer or
promotion (flag `false`), and leaves the local tree untouched. -/
theorem C4_transfer_idempotent (remotePaths : List String) (remoteContent : String → String)
    (localFiles : List (String × String)) :
    (∀ p, p ∈ prepare_transfer remotePaths localFiles
        ↔ p ∈ remotePaths ∧ (localFiles.lookup p).isNone)
    ∧ (download remotePaths remoteContent (download remotePaths remoteContent localFiles).1).2.1
        = []
    ∧ (download remotePaths remoteContent (download remotePaths remoteContent localFiles).1).2.2
        = false
    ∧ (download remotePaths remoteContent (download remotePaths remoteContent localFiles).1).1
        = (download remotePaths remoteContent localFiles).1 := by
  have hmem : ∀ p, p ∈ prepare_transfer remotePaths localFiles
      ↔ p ∈ remotePaths ∧ (localFiles.lookup p).isNone := by
    intro p
    simp [prepare_transfer, List.mem_filter]
  have hall : ∀ p ∈ remotePaths,
      (((download remotePaths remoteContent localFiles).1).lookup p).isSome := by
    intro p hp
    by_cases hm : prepare_transfer remotePaths localFiles = []
    · have hnone : ¬((localFiles.lookup p).isNone = true) := by
        have := List.filter_eq_nil_iff.mp hm p hp
        simpa [prepare_transfer] using this
      have : (localFiles.lookup p).isSome := by
        rcases hcase : localFiles.lookup p with _ | v
        · rw [hcase] at hnone
          exact absurd rfl hnone
        · rfl
      simpa [download, hm] using this
    · rw [show (download remotePaths remoteContent localFiles).1
          = (finalize_transfer (transfer (prepare_transfer remotePaths localFiles) remoteContent)
              localFiles).1 by simp [download, hm]]
      rcases hl : localFiles.lookup p with _ | v
      · have hpm : p ∈ prepare_transfer remotePaths localFiles :=
          (hmem p).mpr ⟨hp, by rw [hl]; rfl⟩
        have hstaged : (p, remoteContent p)
            ∈ transfer (prepare_transfer remotePaths localFiles) remoteContent :=
          List.mem_map_of_mem _ hpm
        exact finalize_mem_isSome _ localFiles (p, remoteContent p) hstaged
      · rw [finalize_preserves _ localFiles p v hl]
        rfl
  have hm2 : prepare_transfer remotePaths (download remotePaths remoteContent localFiles).1 = [] := by
    apply List.filter_eq_nil_iff.mpr
    intro p hp
    have hps := hall p hp
    rcases ho : ((download remotePaths remoteContent localFiles).1).lookup p with _ | v
    · rw [ho] at hps
      exact absurd hps (by simp)
    · simp [ho]
  obtain ⟨d1, hd1⟩ : ∃ d1, (download remotePaths remoteContent localFiles).1 = d1 := ⟨_, rfl⟩
  rw [hd1] at hm2
  refine ⟨hmem, ?_, ?_, ?_⟩
  · rw [hd1]
    simp only [download]
    rw [if_pos hm2]
    exact hm2
  · rw [hd1]
    simp only [download]
    rw [if_pos hm2]
  · rw [hd1]
    simp only [download]
    rw [if_pos hm2]

/-- C5: `finalize_transfer` moves a staged file into the destination only when
no file exists at that destination path: every pre-existing destination file
keeps its content; the returned pair counts exactly the staged files whose
destination was free (moved) and occupied (skipped); the two counts add up to
the number of staged files; and every staged file whose destination was free
ends up at its destination with its staged content. -/
theorem C5_finalize_no_overwrite (staging dest : List (String × String))
    (hnd : (staging.map Prod.fst).Nodup) :
    (∀ p v, dest.lookup p = some v → ((finalize_transfer staging dest).1).lookup p = some v)
    ∧ (finalize_transfer staging dest).2.1
        = (staging.filter fun f => ((dest.lookup f.1).isNone)).length
    ∧ (finalize_transfer staging dest).2.2
        = (staging.filter fun f => ((dest.lookup f.1).isSome)).length
    ∧ (finalize_transfer staging dest).2.1 + (finalize_transfer staging dest).2.2
        = staging.length
    ∧ (∀ f ∈ staging, dest.lookup f.1 = none →
        ((finalize_transfer staging dest).1).lookup f.1 = some f.2) := by
  obtain ⟨h1, h2⟩ := finalize_counts staging dest hnd
  refine ⟨fun p v h => finalize_preserves staging dest p v h, h1, h2, ?_,
    fun f hf hm => finalize_moves staging dest hnd f hf hm⟩
  rw [h1, h2]
  have hflip : staging.filter (fun f => ((dest.lookup f.1).isSome))
      = staging.filter (fun f => !((dest.lookup f.1).isNone)) := by
    apply List.filter_congr
    intro f _
    rcases dest.lookup f.1 with _ | v <;> rfl
  rw [hflip]
  exact length_filter_add_length_filter_not staging _

/-- Witness for C5: staging `a` (occupied by a sentinel) and `b` (free). -/
theorem C5_finalize_no_overwrite_witness :
    (([("a", "new"), ("b", "data")].map Prod.fst).Nodup : Prop)
    ∧ ((∀ p v, ([("a", "sentinel")] : List (String × String)).lookup p = some v →
          ((finalize_transfer [("a", "new"), ("b", "data")] [("a", "sentinel")]).1).lookup p
            = some v)
      ∧ (finalize_transfer [("a", "new"), ("b", "data")] [("a", "sentinel")]).2.1
          = ([("a", "new"), ("b", "data")].filter
              fun f => ((([("a", "sentinel")] : List (String × String)).lookup f.1).isNone)).length
      ∧ (finalize_transfer [("a", "new"), ("b", "data")] [("a", "sentinel")]).2.2
          = ([("a", "new"), ("b", "data")].filter
              fun f => ((([("a", "sentinel")] : List (String × String)).lookup f.1).isSome)).length
      ∧ (finalize_transfer [("a", "new"), ("b", "data")] [("a", "sentinel")]).2.1
          + (finalize_transfer [("a", "new"), ("b", "data")] [("a", "sentinel")]).2.2
          = ([("a", "new"), ("b", "data")] : List (String × String)).length
      ∧ (∀ f ∈ ([("a", "new"), ("b", "data")] : List (String × String)),
          ([("a", "sentinel")] : List (String × String)).lookup f.1 = none →
            ((finalize_transfer [("a", "new"), ("b", "data")] [("a", "sentinel")]).1).lookup f.1
              = some f.2)) :=
  ⟨by decide, C5_finalize_no_overwrite [("a", "new"), ("b", "data")] [("a", "sentinel")]
    (by decide)⟩

/-- C6: for every pair of channel transcripts the cross-channel merge is a
permutation of the concatenation of the two channels' tagged segment lists —
each conversation segment is one input segment with its text unchanged, so no
text is ever concatenated across speakers — sorted by
`(start, end, channel label)`; on customer `[(0,1,"hi")]` and store
`[(0.5,1.5,"hello")]` the order is customer first, then store. -/
theorem C6_cross_merge_order :
    (∀ customer store : Transcript,
        ((segments_with_channel customer store).Perm
          (tagSegments customer ++ tagSegments store))
        ∧ (segments_with_channel customer store).Pairwise (fun a b => convLt b a = false))
    ∧ segments_with_channel custHi storeHello
        = [⟨0, 1, "hi", none, none, none, none, "customer"⟩,
           ⟨1/2, 3/2, "hello", none, none, none, none, "store"⟩] := by
  constructor
  · intro customer store
    constructor
    · exact pySort_perm convLt (tagSegments customer ++ tagSegments store)
    · exact pairwise_pySort convLt
        (keyLt_asym fun s : ConvSeg => toLex (s.start, toLex (s.stop, s.channel.data)))
        (keyLt_negtrans fun s : ConvSeg => toLex (s.start, toLex (s.stop, s.channel.data)))
        (tagSegments customer ++ tagSegments store)
  · norm_num [segments_with_channel, tagSegments, custHi, storeHello, pySort, insertStable,
      convLt, keyLt, Prod.Lex.lt_iff]

/-- C7 (counterexample): `conversation.txt` is the `"\n"`-join of
`"channel: text"` lines with Python `.strip()` applied, followed by a final
newline; its line (newline) count does **not** always equal the segment
count: a single segment whose text contains an embedded newline produces a
two-line file. -/
theorem C7_counterexample :
    (conversationTxtFile [newlineSeg]).data.count '\n' = 2
    ∧ ([newlineSeg] : List ConvSeg).length = 1
    ∧ ¬((conversationTxtFile [newlineSeg]).data.count '\n'
        = ([newlineSeg] : List ConvSeg).length) := by
  refine ⟨by decide, rfl, by decide⟩

/-- C7 (amended): the text written to `conversation.txt` is the newline-join
of `"channel: text"` lines with Python `str.strip()` applied plus a trailing
newline; whenever the conversation has at least one segment and no channel
label or segment text contains a newline character, the file's newline count
(its line count, as the file ends in a newline) equals the conversation's
segment count. -/
theorem C7_conversation_txt_lines (segs : List ConvSeg) (hne : segs ≠ [])
    (hnl : ∀ t ∈ segs, '\n' ∉ t.channel.data ∧ '\n' ∉ t.text.data) :
    (conversationTxtFile segs).data.count '\n' = segs.length := by
  have hlines : ((joinNL (segs.map renderLine)).data)
      = joinNLData ((segs.map renderLine).map String.data) := joinNL_data _
  have hgoodlines : ∀ l ∈ (segs.map renderLine).map String.data,
      '\n' ∉ l ∧ ∃ c ∈ l, pws c = false := by
    intro l hl
    rcases List.mem_map.mp hl with ⟨line, hline, rfl⟩
    rcases List.mem_map.mp hline with ⟨t, ht, rfl⟩
    obtain ⟨hch, htx⟩ := hnl t ht
    have hdata : (renderLine t).data = t.channel.data ++ (':' :: ' ' :: t.text.data) := by
      show (t.channel ++ ": " ++ t.text).data = _
      rw [String.data_append, String.data_append]
      rw [show (": " : String).data = [':', ' '] from rfl]
      rw [List.append_assoc]
      rfl
    constructor
    · rw [hdata]
      intro hmem
      rcases List.mem_append.mp hmem with h | h
      · exact hch h
      · rcases List.mem_cons.mp h with h' | h'
        · exact absurd h' (by decide)
        · rcases List.mem_cons.mp h' with h'' | h''
          · exact absurd h'' (by decide)
          · exact htx h''
    · refine ⟨':', ?_, by decide⟩
      rw [hdata]
      exact List.mem_append_right _ (by simp)
  have hlne : (segs.map renderLine).map String.data ≠ [] := by
    intro h
    rcases segs with _ | ⟨a, t⟩
    · exact hne rfl
    · exact List.noConfusion h
  have hcount : (conversation_text segs).data.count '\n' = segs.length - 1 := by
    show (stripChars (joinNL (segs.map renderLine)).data).count '\n' = segs.length - 1
    rw [hlines, count_stripChars_joinNLData _ hlne hgoodlines,
      count_joinNLData _ hlne (fun l hl => (hgoodlines l hl).1)]
    simp
  have hfinal : (conversationTxtFile segs).data
      = (conversation_text segs).data ++ ['\n'] := by
    show (conversation_text segs ++ "\n").data = _
    rw [String.data_append]
  rw [hfinal, List.count_append, hcount]
  have hpos : 1 ≤ segs.length := by
    rcases segs with _ | ⟨a, t⟩
    · exact absurd rfl hne
    · simp
  have : List.count '\n' ['\n'] = 1 := by decide
  rw [this]
  omega

/-- Witness for C7 (amended) at a concrete two-segment conversation. -/
theorem C7_conversation_txt_lines_witness :
    (([⟨0, 1, "hi", none, none, none, none, "customer"⟩,
        ⟨1/2, 3/2, "hello", none, none, none, none, "store"⟩] : List ConvSeg) ≠ [])
    ∧ (∀ t ∈ ([⟨0, 1, "hi", none, none, none, none, "customer"⟩,
        ⟨1/2, 3/2, "hello", none, none, none, none, "store"⟩] : List ConvSeg),
        '\n' ∉ t.channel.data ∧ '\n' ∉ t.text.data)
    ∧ (conversationTxtFile [⟨0, 1, "hi", none, none, none, none, "customer"⟩,
        ⟨1/2, 3/2, "hello", none, none, none, none, "store"⟩]).data.count '\n'
      = ([⟨0, 1, "hi", none, none, none, none, "customer"⟩,
          ⟨1/2, 3/2, "hello", none, none, none, none, "store"⟩] : List ConvSeg).length :=
  ⟨by simp, by decide,
    C7_conversation_txt_lines _ (by simp) (by decide)⟩

/-- C8: the `conversation.json` payload does not have the claimed schema.
Its key list is `[call_id, call_datetime_utc, call_datetime_ep, duration,
conversation_text, customer_metadata, store_metadata, segments_with_channel]`
— there is no `call_uuid`, `metadata`, `segments`, `text` or `timestamp` key —
and each written segment carries a `channel` key, never a `speaker` key.  The
downstream reader `scripts/build_ui_calls.py` (`_load_conversation`) reads
exactly the claimed keys (`call_uuid`, `timestamp`, `duration`, `segments`,
`speaker`), so the writer and its in-repo consumer disagree. -/
theorem C8_payload_schema :
    conversation_payload_keys "customer" "store"
      = ["call_id", "call_datetime_utc", "call_datetime_ep", "duration", "conversation_text",
         "customer_metadata", "store_metadata", "segments_with_channel"]
    ∧ "call_uuid" ∉ conversation_payload_keys "customer" "store"
    ∧ "metadata" ∉ conversation_payload_keys "customer" "store"
    ∧ "segments" ∉ conversation_payload_keys "customer" "store"
    ∧ "text" ∉ conversation_payload_keys "customer" "store"
    ∧ "timestamp" ∉ conversation_payload_keys "customer" "store"
    ∧ (∀ segKeys : List String, "speaker" ∉ seg_w_metadata_keys segKeys)
    ∧ (∀ segKeys : List String, "channel" ∈ seg_w_metadata_keys segKeys) := by
  refine ⟨by decide, by decide, by decide, by decide, by decide, by decide, ?_, ?_⟩
  · intro segKeys h
    rcases List.mem_append.mp h with h' | h'
    · have := List.of_mem_filter h'
      simp [segment_metadata_passthrough_keys] at this
    · simp at h'
  · intro segKeys
    exact List.mem_append_right _ (by simp)

/-- C9 (counterexample): with gap threshold 0 and a customer channel holding
the back-to-back segments `(0,1,"a")`, `(1,2,"b")`, the conversation built by
`postprocess_transcripts` keeps both raw segments, whereas the claimed
pipeline (intra-channel merge first, then concatenate and sort) would produce
a single merged segment — so the cross-channel merge does not apply the
intra-channel merge first. -/
theorem C9_counterexample :
    (segments_with_channel custC9 storeC9).length = 2
    ∧ (claimed_intra_then_cross 0 custC9 storeC9).length = 1
    ∧ segments_with_channel custC9 storeC9 ≠ claimed_intra_then_cross 0 custC9 storeC9 := by
  have h1 : (segments_with_channel custC9 storeC9).length = 2 := by
    norm_num [segments_with_channel, tagSegments, custC9, storeC9, pySort, insertStable,
      convLt, keyLt, Prod.Lex.lt_iff]
  have h2 : (claimed_intra_then_cross 0 custC9 storeC9).length = 1 := by
    have ha : pyStrip "a" = "a" := by decide
    have hb : pyStrip "b" = "b" := by decide
    have hab : pyStrip ("a" ++ " " ++ "b") = "a b" := by decide
    norm_num [claimed_intra_then_cross, tagMergedSegments, custC9, storeC9, chanToRaw,
      merge_segments_eq_core, mergeCore, normalize, normalizeSeg, List.filterMap_cons,
      pySort, insertStable, nsegLt, convLt, keyLt, Prod.Lex.lt_iff, mergeLoop, sepJoin,
      ha, hb, hab]
  refine ⟨h1, h2, ?_⟩
  intro h
  rw [h, h2] at h1
  exact absurd h1 (by decide)

/-- C9 (amended): the merge gap threshold affects only the per-channel
transcript writing step: when a threshold is supplied, `_write_transcript`
stores the intra-channel merge result under the separate `merged_segments`
key while the raw `segments` list is written unchanged (and no
`merged_segments` key is written without a threshold); the cross-channel
merge always builds the conversation from the raw per-channel segment lists —
a permutation of both channels' tagged raw segments — and never applies the
intra-channel merge. -/
theorem C9_threshold_only_affects_channel_payload :
    (∀ (t : ℚ) (segs : List RawSeg),
        (write_transcript_segs (some t) segs).segments = segs
        ∧ (write_transcript_segs (some t) segs).mergedSegments = some (merge_segments segs t))
    ∧ (∀ segs : List RawSeg,
        (write_transcript_segs none segs).segments = segs
        ∧ (write_transcript_segs none segs).mergedSegments = none)
    ∧ (∀ customer store : Transcript,
        (segments_with_channel customer store).Perm
          (tagSegments customer ++ tagSegments store)) := by
  refine ⟨fun t segs => ⟨rfl, rfl⟩, fun segs => ⟨rfl, rfl⟩, ?_⟩
  intro customer store
  exact pySort_perm convLt (tagSegments customer ++ tagSegments store)

/-- C10: a segment whose text is empty or whitespace-only after stripping is
dropped by normalization even when its timing is well-formed: the normalized
list — and with it the entire merge result, for every gap threshold — is
unchanged when all such segments are removed from the input, so they never
contribute to any merged segment's time span or text. -/
theorem C10_blank_segments_dropped :
    (∀ segs : List RawSeg,
        normalize (segs.filter fun s => !(blankTextSeg s)) = normalize segs)
    ∧ (∀ (segs : List RawSeg) (t : ℚ),
        merge_segments (segs.filter fun s => !(blankTextSeg s)) t = merge_segments segs t) := by
  have hdrop : ∀ s : RawSeg, (!(blankTextSeg s)) = false → normalizeSeg s = none := by
    intro s h
    apply normalizeSeg_of_blank
    rcases hb : blankTextSeg s with _ | _
    · rw [hb] at h
      exact absurd h (by simp)
    · rfl
  refine ⟨fun segs => normalize_filter _ hdrop segs, fun segs t => ?_⟩
  rw [merge_segments_eq_core, merge_segments_eq_core, normalize_filter _ hdrop segs]

end CallIq
